import Mathlib

/-!
Verification of the arboriter tree-traversal engine (`src/lib.rs`).

The core of the crate is `traverse_tree` / `traverse_internal`:
a depth-first pre-order walker over a caller-defined tree, steered by a
three-valued control signal returned from the visitor.

We embed the engine shallowly:

* `TreeControl` mirrors the Rust enum `TreeControl`.
* `traverse_internal` mirrors the recursive function `traverse_internal`.
  The Rust recursion has no explicit bound; the embedding adds a `fuel`
  argument (the recursion runs out of fuel only on trees deeper than
  `fuel`, and all theorems about finite trees supply sufficient fuel).
  Since the observable behaviour of a traversal is the sequence of nodes
  handed to `visit_fn` (in order), the embedding returns that sequence
  alongside the `TreeControl` result the Rust function returns.
* `runChildren` mirrors the `for child in branch_fn(node)` loop body,
  including its early `return TreeControl::Break`.
* `traverse_tree` mirrors the public entry point: the root is traversed
  only when `condition initial` holds.
-/

/-- Mirrors the Rust enum `TreeControl` with variants
`Continue`, `Prune`, `Break`. -/
inductive TreeControl where
  | Continue
  | Prune
  | Break
deriving DecidableEq, Repr

/-- Mirrors the `for child in branch_fn(node) { if condition(&child) { ... } }`
loop of `traverse_internal`: run `f` (the recursive traversal at the next
depth) on each child that satisfies `condition`, in order, accumulating the
visited nodes, and stop early propagating `TreeControl.Break` exactly as the
Rust `return TreeControl::Break` does. -/
def runChildren (condition : α → Bool) (f : α → List α × TreeControl) :
    List α → List α × TreeControl
  | [] => ([], TreeControl.Continue)
  | child :: rest =>
      if condition child then
        let r := f child
        if r.2 = TreeControl.Break then (r.1, TreeControl.Break)
        else
          let rr := runChildren condition f rest
          (r.1 ++ rr.1, rr.2)
      else runChildren condition f rest

/-- Mirrors the Rust `traverse_internal`: visit the node, dispatch on the
signal (`Break` aborts, `Prune` returns `Continue` to the caller without
expanding children, `Continue` expands `branch_fn node` via the child loop).
The first component of the result is the list of nodes passed to `visit_fn`,
in call order; the second is the `TreeControl` value the Rust function
returns. -/
def traverse_internal (condition : α → Bool) (branch_fn : α → List α)
    (visit_fn : α → TreeControl) : Nat → α → List α × TreeControl
  | 0 => fun _ => ([], TreeControl.Continue)
  | fuel + 1 => fun node =>
      match visit_fn node with
      | TreeControl.Break => ([node], TreeControl.Break)
      | TreeControl.Prune => ([node], TreeControl.Continue)
      | TreeControl.Continue =>
          let r := runChildren condition
            (traverse_internal condition branch_fn visit_fn fuel) (branch_fn node)
          (node :: r.1, r.2)

/-- Mirrors the public Rust `traverse_tree`: traverse only when the initial
node meets the condition; the result is the sequence of visited nodes. -/
def traverse_tree (initial : α) (condition : α → Bool)
    (branch_fn : α → List α) (visit_fn : α → TreeControl) (fuel : Nat) :
    List α :=
  if condition initial then
    (traverse_internal condition branch_fn visit_fn fuel initial).1
  else []

/-- Reference listing: the full depth-first pre-order of the conceptual tree
generated by `branch_fn` from a root, to the given depth. Each tree position
occurs exactly once, a node before its subtrees, subtrees in the order
`branch_fn` returns the children. -/
def preorderTraversal (branch_fn : α → List α) : Nat → α → List α
  | 0 => fun _ => []
  | fuel + 1 => fun t => t :: (branch_fn t).flatMap (preorderTraversal branch_fn fuel)

example : preorderTraversal (fun n => if n < 2 then [n + 1, n + 2] else []) 5 0
    = [0, 1, 2, 3, 2] := by decide

/-- Reachability in the conceptual tree: `Reaches branch_fn root t` holds when
`t` is the root or arises from it by repeatedly taking produced children. -/
inductive Reaches (branch_fn : α → List α) (root : α) : α → Prop where
  | refl : Reaches branch_fn root root
  | tail {t c : α} : Reaches branch_fn root t → c ∈ branch_fn t →
      Reaches branch_fn root c

section UnfoldLemmas

variable {α : Type u} (condition : α → Bool) (branch_fn : α → List α)
  (visit_fn : α → TreeControl) (f : α → List α × TreeControl)

@[simp] theorem traverse_internal_zero (t : α) :
    traverse_internal condition branch_fn visit_fn 0 t = ([], TreeControl.Continue) := rfl

theorem traverse_internal_succ_break {t : α} (fuel : Nat)
    (h : visit_fn t = TreeControl.Break) :
    traverse_internal condition branch_fn visit_fn (fuel + 1) t
      = ([t], TreeControl.Break) := by
  simp [traverse_internal, h]

theorem traverse_internal_succ_prune {t : α} (fuel : Nat)
    (h : visit_fn t = TreeControl.Prune) :
    traverse_internal condition branch_fn visit_fn (fuel + 1) t
      = ([t], TreeControl.Continue) := by
  simp [traverse_internal, h]

theorem traverse_internal_succ_continue {t : α} (fuel : Nat)
    (h : visit_fn t = TreeControl.Continue) :
    traverse_internal condition branch_fn visit_fn (fuel + 1) t
      = (t :: (runChildren condition
          (traverse_internal condition branch_fn visit_fn fuel) (branch_fn t)).1,
         (runChildren condition
          (traverse_internal condition branch_fn visit_fn fuel) (branch_fn t)).2) := by
  simp [traverse_internal, h]

@[simp] theorem runChildren_nil :
    runChildren condition f [] = ([], TreeControl.Continue) := rfl

theorem runChildren_cons_skip {c : α} (cs : List α) (h : condition c = false) :
    runChildren condition f (c :: cs) = runChildren condition f cs := by
  simp [runChildren, h]

theorem runChildren_cons_break {c : α} (cs : List α) (h : condition c = true)
    (hb : (f c).2 = TreeControl.Break) :
    runChildren condition f (c :: cs) = ((f c).1, TreeControl.Break) := by
  simp [runChildren, h, hb]

theorem runChildren_cons_cont {c : α} (cs : List α) (h : condition c = true)
    (hb : (f c).2 ≠ TreeControl.Break) :
    runChildren condition f (c :: cs)
      = ((f c).1 ++ (runChildren condition f cs).1,
         (runChildren condition f cs).2) := by
  simp [runChildren, h, hb]

end UnfoldLemmas

section RunChildrenLemmas

variable {α : Type u} {condition : α → Bool} {f g : α → List α × TreeControl}

/-- The child loop only queries `f` on children that pass the condition. -/
theorem runChildren_congr {cs : List α}
    (h : ∀ c ∈ cs, condition c = true → f c = g c) :
    runChildren condition f cs = runChildren condition g cs := by
  induction cs with
  | nil => rfl
  | cons c cs ih =>
      by_cases hc : condition c = true
      · have hfc : f c = g c := h c (List.mem_cons_self c cs) hc
        have hrest : ∀ x ∈ cs, condition x = true → f x = g x :=
          fun x hx => h x (List.mem_cons_of_mem c hx)
        simp [runChildren, hc, hfc, ih hrest]
      · have hc' : condition c = false := by
          cases hcc : condition c
          · rfl
          · exact absurd hcc hc
        rw [runChildren_cons_skip _ _ _ hc', runChildren_cons_skip _ _ _ hc']
        exact ih fun x hx => h x (List.mem_cons_of_mem c hx)

/-- When no eligible child's recursive result signals `Break`, the child loop
concatenates the children's visit lists in order and returns `Continue`. -/
theorem runChildren_eq_flatMap {cs : List α}
    (h : ∀ c ∈ cs, condition c = true → (f c).2 = TreeControl.Continue) :
    runChildren condition f cs
      = ((cs.filter condition).flatMap (fun c => (f c).1), TreeControl.Continue) := by
  induction cs with
  | nil => rfl
  | cons c cs ih =>
      have hrest : ∀ x ∈ cs, condition x = true → (f x).2 = TreeControl.Continue :=
        fun x hx => h x (List.mem_cons_of_mem c hx)
      by_cases hc : condition c = true
      · have hfc : (f c).2 = TreeControl.Continue := h c (List.mem_cons_self c cs) hc
        have hne : (f c).2 ≠ TreeControl.Break := by simp [hfc]
        rw [runChildren_cons_cont _ _ _ hc hne, ih hrest]
        simp [List.filter_cons, hc]
      · have hc' : condition c = false := by
          cases hcc : condition c
          · rfl
          · exact absurd hcc hc
        rw [runChildren_cons_skip _ _ _ hc', ih hrest]
        simp [List.filter_cons, hc']

/-- Every node visited by the child loop was visited inside some eligible
child's recursive call. -/
theorem runChildren_mem {cs : List α} {x : α}
    (hx : x ∈ (runChildren condition f cs).1) :
    ∃ c ∈ cs, condition c = true ∧ x ∈ (f c).1 := by
  induction cs with
  | nil => simp [runChildren] at hx
  | cons c cs ih =>
      by_cases hc : condition c = true
      · by_cases hb : (f c).2 = TreeControl.Break
        · rw [runChildren_cons_break _ _ _ hc hb] at hx
          exact ⟨c, List.mem_cons_self c cs, hc, hx⟩
        · rw [runChildren_cons_cont _ _ _ hc hb] at hx
          rcases List.mem_append.mp hx with hx1 | hx2
          · exact ⟨c, List.mem_cons_self c cs, hc, hx1⟩
          · obtain ⟨d, hd, hdc, hdx⟩ := ih hx2
            exact ⟨d, List.mem_cons_of_mem c hd, hdc, hdx⟩
      · have hc' : condition c = false := by
          cases hcc : condition c
          · rfl
          · exact absurd hcc hc
        rw [runChildren_cons_skip _ _ _ hc'] at hx
        obtain ⟨d, hd, hdc, hdx⟩ := ih hx
        exact ⟨d, List.mem_cons_of_mem c hd, hdc, hdx⟩

end RunChildrenLemmas

/-- Reference listing for a traversal without `Break`: depth-first pre-order
steered by the visitor, where a node is followed by the pre-orders of its
eligible children in the order `branch_fn` returns them — except that a
`Prune` signal keeps the node but drops its children. -/
def preorderSteered (condition : α → Bool) (branch_fn : α → List α)
    (visit_fn : α → TreeControl) : Nat → α → List α
  | 0 => fun _ => []
  | fuel + 1 => fun t =>
      t :: (match visit_fn t with
        | TreeControl.Continue =>
            ((branch_fn t).filter condition).flatMap
              (preorderSteered condition branch_fn visit_fn fuel)
        | _ => [])

section CoreLemmas

variable {α : Type u} {condition : α → Bool} {branch_fn : α → List α}
  {visit_fn : α → TreeControl} {f : α → List α × TreeControl}

/-- The child loop never reports `Prune` upward: its signal is `Continue` or
`Break`. -/
theorem runChildren_signal (cs : List α) :
    (runChildren condition f cs).2 = TreeControl.Continue
      ∨ (runChildren condition f cs).2 = TreeControl.Break := by
  induction cs with
  | nil => left; rfl
  | cons c cs ih =>
      by_cases hc : condition c = true
      · by_cases hb : (f c).2 = TreeControl.Break
        · rw [runChildren_cons_break _ _ _ hc hb]; right; rfl
        · rw [runChildren_cons_cont _ _ _ hc hb]; exact ih
      · have hc' : condition c = false := by
          cases hcc : condition c
          · rfl
          · exact absurd hcc hc
        rw [runChildren_cons_skip _ _ _ hc']; exact ih

/-- The engine never reports `Prune` upward: the signal returned by a frame
is `Continue` or `Break` (Rust lines 281-282 convert `Prune` into
`Continue` before returning). -/
theorem traverse_internal_signal (fuel : Nat) (t : α) :
    (traverse_internal condition branch_fn visit_fn fuel t).2 = TreeControl.Continue
      ∨ (traverse_internal condition branch_fn visit_fn fuel t).2 = TreeControl.Break := by
  cases fuel with
  | zero => left; rfl
  | succ fuel =>
      cases h : visit_fn t with
      | Break => rw [traverse_internal_succ_break _ _ _ _ h]; right; rfl
      | Prune => rw [traverse_internal_succ_prune _ _ _ _ h]; left; rfl
      | Continue =>
          rw [traverse_internal_succ_continue _ _ _ _ h]
          exact runChildren_signal _

/-- Core no-`Break` lemma: when the visitor never answers `Break`, a frame
returns `Continue` and its visit sequence is exactly the steered pre-order. -/
theorem traverse_internal_no_break
    (hv : ∀ x, visit_fn x ≠ TreeControl.Break) (fuel : Nat) (t : α) :
    traverse_internal condition branch_fn visit_fn fuel t
      = (preorderSteered condition branch_fn visit_fn fuel t,
         TreeControl.Continue) := by
  induction fuel generalizing t with
  | zero => rfl
  | succ fuel ih =>
      cases h : visit_fn t with
      | Break => exact absurd h (hv t)
      | Prune =>
          rw [traverse_internal_succ_prune _ _ _ _ h]
          simp [preorderSteered, h]
      | Continue =>
          rw [traverse_internal_succ_continue _ _ _ _ h]
          rw [runChildren_eq_flatMap (f := traverse_internal condition branch_fn visit_fn fuel)
            (fun c _ _ => by rw [ih c])]
          have hfun : (fun c => (traverse_internal condition branch_fn visit_fn fuel c).1)
              = preorderSteered condition branch_fn visit_fn fuel :=
            funext fun c => by rw [ih c]
          simp [preorderSteered, h, hfun]

/-- Core condition invariant: if the entry node passed the condition, every
node the frame visits passed the condition at the moment it was checked. -/
theorem traverse_internal_mem_cond {fuel : Nat} {t x : α}
    (hc : condition t = true)
    (hx : x ∈ (traverse_internal condition branch_fn visit_fn fuel t).1) :
    condition x = true := by
  induction fuel generalizing t with
  | zero => simp at hx
  | succ fuel ih =>
      cases h : visit_fn t with
      | Break =>
          rw [traverse_internal_succ_break _ _ _ _ h] at hx
          simp at hx; rwa [hx]
      | Prune =>
          rw [traverse_internal_succ_prune _ _ _ _ h] at hx
          simp at hx; rwa [hx]
      | Continue =>
          rw [traverse_internal_succ_continue _ _ _ _ h] at hx
          rcases List.mem_cons.mp hx with hx0 | hx1
          · rwa [hx0]
          · obtain ⟨c, _, hcc, hcx⟩ := runChildren_mem hx1
            exact ih hcc hcx

end CoreLemmas

/-- C4: for every input, if `condition initial` is false then `traverse_tree`
performs zero visits — the visited sequence is empty for every `branch_fn`
and `visit_fn`, so no caller-observable effect of `visit_fn` can occur and
caller-owned state mutated only by `visit_fn` is left unchanged. -/
theorem traverse_tree_root_condition_false {α : Type u}
    (initial : α) (condition : α → Bool) (branch_fn : α → List α)
    (visit_fn : α → TreeControl) (fuel : Nat)
    (h : condition initial = false) :
    traverse_tree initial condition branch_fn visit_fn fuel = [] := by
  simp [traverse_tree, h]

theorem traverse_tree_root_condition_false_witness :
    (fun n => decide (n < 8)) 11 = false ∧
      traverse_tree 11 (fun n => decide (n < 8)) (fun n => [n + 1])
        (fun _ => TreeControl.Continue) 5 = [] :=
  ⟨by decide, traverse_tree_root_condition_false 11 (fun n => decide (n < 8))
    (fun n => [n + 1]) (fun _ => TreeControl.Continue) 5 (by decide)⟩

/-- C5: in every traversal, every visited node satisfied the condition
predicate when it was checked (the root is checked in `traverse_tree` before
any visiting, each produced child in the loop of `traverse_internal` before
its recursive visit); no node failing the check is ever visited. -/
theorem traverse_tree_visited_satisfies_condition {α : Type u}
    (initial : α) (condition : α → Bool) (branch_fn : α → List α)
    (visit_fn : α → TreeControl) (fuel : Nat) (x : α)
    (hx : x ∈ traverse_tree initial condition branch_fn visit_fn fuel) :
    condition x = true := by
  unfold traverse_tree at hx
  by_cases h : condition initial = true
  · rw [if_pos h] at hx
    exact traverse_internal_mem_cond h hx
  · rw [if_neg h] at hx
    simp at hx

theorem traverse_tree_visited_satisfies_condition_witness :
    1 ∈ traverse_tree 0 (fun n => decide (n < 2)) (fun n => [n + 1])
        (fun _ => TreeControl.Continue) 5
      ∧ decide (1 < 2) = true :=
  ⟨by decide, traverse_tree_visited_satisfies_condition 0 (fun n => decide (n < 2))
    (fun n => [n + 1]) (fun _ => TreeControl.Continue) 5 1 (by decide)⟩

/-- C6: in every traversal without `Break`, the visited sequence is the
steered pre-order: every visited `Continue`-node is followed by the full
subtrees of its eligible children in exactly the order `branch_fn` returned
them, each child's entire subtree completed before the next sibling starts. -/
theorem traverse_tree_children_in_branch_order {α : Type u}
    (initial : α) (condition : α → Bool) (branch_fn : α → List α)
    (visit_fn : α → TreeControl) (fuel : Nat)
    (hv : ∀ x, visit_fn x ≠ TreeControl.Break)
    (hroot : condition initial = true) :
    traverse_tree initial condition branch_fn visit_fn fuel
      = preorderSteered condition branch_fn visit_fn fuel initial := by
  unfold traverse_tree
  rw [if_pos hroot, traverse_internal_no_break hv]

theorem traverse_tree_children_in_branch_order_witness :
    (∀ x : Nat, (fun n => if n % 2 = 0 then TreeControl.Prune else TreeControl.Continue) x
        ≠ TreeControl.Break)
      ∧ traverse_tree 1 (fun n => decide (n < 8)) (fun n => [2 * n, 2 * n + 1])
          (fun n => if n % 2 = 0 then TreeControl.Prune else TreeControl.Continue) 5
        = preorderSteered (fun n => decide (n < 8)) (fun n => [2 * n, 2 * n + 1])
            (fun n => if n % 2 = 0 then TreeControl.Prune else TreeControl.Continue) 5 1 := by
  have hv : ∀ x : Nat,
      (fun n => if n % 2 = 0 then TreeControl.Prune else TreeControl.Continue) x
        ≠ TreeControl.Break := by
    intro x
    by_cases h : x % 2 = 0 <;> simp [h]
  exact ⟨hv, traverse_tree_children_in_branch_order 1 (fun n => decide (n < 8))
    (fun n => [2 * n, 2 * n + 1])
    (fun n => if n % 2 = 0 then TreeControl.Prune else TreeControl.Continue) 5 hv (by decide)⟩

example : traverse_tree 1 (fun n => decide (n < 8)) (fun n => [2 * n, 2 * n + 1])
    (fun n => if n % 2 = 0 then TreeControl.Prune else TreeControl.Continue) 5
    = [1, 2, 3, 6, 7] := by decide

theorem flatMap_congr_mem {α : Type u} {β : Type v} {l : List α} {f g : α → List β}
    (h : ∀ a ∈ l, f a = g a) : l.flatMap f = l.flatMap g := by
  induction l with
  | nil => rfl
  | cons a l ih =>
      rw [List.flatMap_cons, List.flatMap_cons, h a (List.mem_cons_self a l),
        ih fun x hx => h x (List.mem_cons_of_mem a hx)]

/-- When a measure `m` strictly decreases from each reachable node to its
produced children (the conceptual tree is finite and acyclic), the pre-order
listing is independent of the depth bound once the bound exceeds `m`. -/
theorem preorderTraversal_stable {α : Type u} {branch_fn : α → List α}
    {root : α} {m : α → Nat}
    (hm : ∀ t c, Reaches branch_fn root t → c ∈ branch_fn t → m c < m t) :
    ∀ fuel₁ fuel₂ t, Reaches branch_fn root t → m t < fuel₁ → m t < fuel₂ →
      preorderTraversal branch_fn fuel₁ t = preorderTraversal branch_fn fuel₂ t := by
  intro fuel₁
  induction fuel₁ with
  | zero => intro fuel₂ t _ hf _; omega
  | succ fuel₁ ih =>
      intro fuel₂ t ht hf₁ hf₂
      cases fuel₂ with
      | zero => omega
      | succ fuel₂ =>
          show t :: _ = t :: _
          rw [List.cons_inj_right]
          apply flatMap_congr_mem
          intro c hcm
          exact ih fuel₂ c (Reaches.tail ht hcm)
            (by have := hm t c ht hcm; omega)
            (by have := hm t c ht hcm; omega)

/-- Core of C1: on a finite acyclic tree in which every reachable node is
eligible and the visitor always continues, a frame's visit sequence is the
full pre-order listing of its subtree. -/
theorem traverse_internal_full_preorder {α : Type u}
    {condition : α → Bool} {branch_fn : α → List α} {visit_fn : α → TreeControl}
    {root : α} {m : α → Nat}
    (hm : ∀ t c, Reaches branch_fn root t → c ∈ branch_fn t → m c < m t)
    (hc : ∀ t, Reaches branch_fn root t → condition t = true)
    (hv : ∀ t, visit_fn t = TreeControl.Continue) :
    ∀ fuel t, Reaches branch_fn root t → m t < fuel →
      traverse_internal condition branch_fn visit_fn fuel t
        = (preorderTraversal branch_fn fuel t, TreeControl.Continue) := by
  intro fuel
  induction fuel with
  | zero => intro t _ hf; omega
  | succ fuel ih =>
      intro t ht hf
      rw [traverse_internal_succ_continue _ _ _ _ (hv t)]
      have hceq : ∀ c ∈ branch_fn t,
          traverse_internal condition branch_fn visit_fn fuel c
            = (preorderTraversal branch_fn fuel c, TreeControl.Continue) := by
        intro c hcm
        exact ih c (Reaches.tail ht hcm) (by have := hm t c ht hcm; omega)
      rw [runChildren_eq_flatMap (fun c hcm _ => by rw [hceq c hcm])]
      have hfilter : (branch_fn t).filter condition = branch_fn t :=
        List.filter_eq_self.mpr fun c hcm => hc c (Reaches.tail ht hcm)
      rw [hfilter]
      show (t :: _, _) = (t :: _, _)
      rw [Prod.mk.injEq, List.cons_inj_right]
      exact ⟨flatMap_congr_mem fun c hcm => by rw [hceq c hcm], rfl⟩

/-- C1: for every finite, acyclic tree (witnessed by a measure strictly
decreasing along produced children of reachable nodes) whose every reachable
node satisfies the condition and whose visitor always returns `Continue`,
`traverse_tree` visits exactly the full pre-order listing of the tree: every
tree position exactly once, a node before its subtrees, subtrees in the order
`branch_fn` returns the children. -/
theorem traverse_tree_full_preorder {α : Type u}
    (initial : α) (condition : α → Bool) (branch_fn : α → List α)
    (visit_fn : α → TreeControl) (m : α → Nat)
    (hm : ∀ t c, Reaches branch_fn initial t → c ∈ branch_fn t → m c < m t)
    (hc : ∀ t, Reaches branch_fn initial t → condition t = true)
    (hv : ∀ t, visit_fn t = TreeControl.Continue)
    (fuel : Nat) (hf : m initial < fuel) :
    traverse_tree initial condition branch_fn visit_fn fuel
      = preorderTraversal branch_fn fuel initial := by
  unfold traverse_tree
  rw [if_pos (hc initial Reaches.refl),
    traverse_internal_full_preorder hm hc hv fuel initial Reaches.refl hf]

theorem traverse_tree_full_preorder_witness :
    traverse_tree 0 (fun _ => true) (fun n => if n < 2 then [n + 1] else [])
        (fun _ => TreeControl.Continue) 5
      = preorderTraversal (fun n => if n < 2 then [n + 1] else []) 5 0 := by
  have hm : ∀ t c : Nat, Reaches (fun n => if n < 2 then [n + 1] else []) 0 t →
      c ∈ (fun n => if n < 2 then [n + 1] else []) t → (2 - c) < (2 - t) := by
    intro t c _ hcm
    by_cases h : t < 2
    · simp [h] at hcm; omega
    · simp [h] at hcm
  exact traverse_tree_full_preorder 0 (fun _ => true)
    (fun n => if n < 2 then [n + 1] else []) (fun _ => TreeControl.Continue)
    (fun n => 2 - n) hm (fun _ _ => rfl) (fun _ => rfl) 5 (by decide)

example : traverse_tree 0 (fun _ => true) (fun n => if n < 2 then [n + 1] else [])
    (fun _ => TreeControl.Continue) 5 = [0, 1, 2] := by decide

/-- The visitor with its `Break` answers weakened to `Continue`; the
traversal under `soften visit_fn` is the pre-order the walk would follow if
nothing aborted it. -/
def soften (visit_fn : α → TreeControl) : α → TreeControl := fun x =>
  match visit_fn x with
  | TreeControl.Break => TreeControl.Continue
  | s => s

/-- Inclusive prefix up to the first element satisfying `p`: the whole list
when no element satisfies `p`. -/
def takeThrough (p : α → Bool) : List α → List α
  | [] => []
  | x :: xs => if p x then [x] else x :: takeThrough p xs

section TakeThroughLemmas

variable {α : Type u} {p : α → Bool}

theorem soften_ne_break (visit_fn : α → TreeControl) (x : α) :
    soften visit_fn x ≠ TreeControl.Break := by
  unfold soften
  cases h : visit_fn x <;> simp

theorem soften_of_break {visit_fn : α → TreeControl} {x : α}
    (h : visit_fn x = TreeControl.Break) :
    soften visit_fn x = TreeControl.Continue := by
  unfold soften; rw [h]

theorem soften_of_ne_break {visit_fn : α → TreeControl} {x : α}
    (h : visit_fn x ≠ TreeControl.Break) :
    soften visit_fn x = visit_fn x := by
  unfold soften
  cases hx : visit_fn x
  · rfl
  · rfl
  · exact absurd hx h

theorem takeThrough_append_of_any {l₁ : List α} (l₂ : List α)
    (h : l₁.any p = true) :
    takeThrough p (l₁ ++ l₂) = takeThrough p l₁ := by
  induction l₁ with
  | nil => simp at h
  | cons x xs ih =>
      cases hx : p x with
      | true => simp [takeThrough, hx]
      | false =>
          simp only [List.any_cons, hx, Bool.false_or] at h
          simp [takeThrough, hx, ih h]

theorem takeThrough_append_of_not_any {l₁ : List α} (l₂ : List α)
    (h : l₁.any p = false) :
    takeThrough p (l₁ ++ l₂) = l₁ ++ takeThrough p l₂ := by
  induction l₁ with
  | nil => rfl
  | cons x xs ih =>
      simp only [List.any_cons, Bool.or_eq_false_iff] at h
      simp [takeThrough, h.1, ih h.2]

theorem takeThrough_eq_self_of_not_any {l : List α} (h : l.any p = false) :
    takeThrough p l = l := by
  induction l with
  | nil => rfl
  | cons x xs ih =>
      simp only [List.any_cons, Bool.or_eq_false_iff] at h
      simp [takeThrough, h.1, ih h.2]

theorem any_takeThrough (l : List α) :
    (takeThrough p l).any p = l.any p := by
  induction l with
  | nil => rfl
  | cons x xs ih =>
      cases hx : p x with
      | true => simp [takeThrough, hx]
      | false => simp [takeThrough, hx, ih]

end TakeThroughLemmas

/-- Child-loop step of the break-truncation argument: if each eligible
child's strict run visits the inclusive `p`-prefix of its softened run and
breaks exactly when the softened run contains a `p`-node, the same holds for
the whole child loop. -/
theorem runChildren_takeThrough {α : Type u} (condition : α → Bool) (p : α → Bool)
    {f g : α → List α × TreeControl}
    (hg : ∀ c, condition c = true → (g c).2 = TreeControl.Continue)
    (hfg : ∀ c, condition c = true →
      (f c).1 = takeThrough p (g c).1 ∧
        ((f c).2 = TreeControl.Break ↔ (g c).1.any p = true)) :
    ∀ cs : List α,
      (runChildren condition f cs).1
          = takeThrough p ((runChildren condition g cs).1)
        ∧ ((runChildren condition f cs).2 = TreeControl.Break
            ↔ (runChildren condition g cs).1.any p = true) := by
  intro cs
  induction cs with
  | nil => simp [takeThrough]
  | cons c cs ih =>
      by_cases hc : condition c = true
      · have hgc : (g c).2 ≠ TreeControl.Break := by simp [hg c hc]
        rw [runChildren_cons_cont _ _ _ hc hgc]
        by_cases hfb : (f c).2 = TreeControl.Break
        · have hany : (g c).1.any p = true := ((hfg c hc).2).mp hfb
          rw [runChildren_cons_break _ _ _ hc hfb]
          constructor
          · rw [(hfg c hc).1, takeThrough_append_of_any _ hany]
          · simp [hany]
        · have hany : (g c).1.any p = false := by
            cases hga : (g c).1.any p
            · rfl
            · exact absurd (((hfg c hc).2).mpr hga) hfb
          rw [runChildren_cons_cont _ _ _ hc hfb]
          have h1 : (f c).1 = (g c).1 := by
            rw [(hfg c hc).1, takeThrough_eq_self_of_not_any hany]
          constructor
          · rw [takeThrough_append_of_not_any _ hany, h1, ih.1]
          · simp [hany, ih.2]
      · have hc' : condition c = false := by
          cases hcc : condition c
          · rfl
          · exact absurd hcc hc
        rw [runChildren_cons_skip _ _ _ hc', runChildren_cons_skip _ _ _ hc']
        exact ih

/-- Core of C2: the strict run's visit sequence is the inclusive prefix of
the softened (never-aborting) run's pre-order up to the first node whose
visit answer is `Break`, and a frame reports `Break` exactly when such a
node occurs in its softened pre-order. -/
theorem traverse_internal_break_trunc {α : Type u} {condition : α → Bool}
    {branch_fn : α → List α} {visit_fn : α → TreeControl} :
    ∀ (fuel : Nat) (t : α),
      (traverse_internal condition branch_fn visit_fn fuel t).1
          = takeThrough (fun x => decide (visit_fn x = TreeControl.Break))
              ((traverse_internal condition branch_fn (soften visit_fn) fuel t).1)
        ∧ ((traverse_internal condition branch_fn visit_fn fuel t).2 = TreeControl.Break
            ↔ (traverse_internal condition branch_fn (soften visit_fn) fuel t).1.any
                (fun x => decide (visit_fn x = TreeControl.Break)) = true) := by
  intro fuel
  induction fuel with
  | zero => intro t; simp [takeThrough]
  | succ fuel ih =>
      intro t
      cases h : visit_fn t with
      | Break =>
          rw [traverse_internal_succ_break _ _ _ _ h,
            traverse_internal_succ_continue _ _ _ _ (soften_of_break h)]
          simp [takeThrough, h]
      | Prune =>
          have hs : soften visit_fn t = TreeControl.Prune :=
            (soften_of_ne_break (by simp [h])).trans h
          rw [traverse_internal_succ_prune _ _ _ _ h,
            traverse_internal_succ_prune _ _ _ _ hs]
          simp [takeThrough, h]
      | Continue =>
          have hs : soften visit_fn t = TreeControl.Continue :=
            (soften_of_ne_break (by simp [h])).trans h
          rw [traverse_internal_succ_continue _ _ _ _ h,
            traverse_internal_succ_continue _ _ _ _ hs]
          have hrc := runChildren_takeThrough condition
            (fun x => decide (visit_fn x = TreeControl.Break))
            (f := traverse_internal condition branch_fn visit_fn fuel)
            (g := traverse_internal condition branch_fn (soften visit_fn) fuel)
            (fun c _ => by rw [traverse_internal_no_break (soften_ne_break visit_fn) fuel c])
            (fun c _ => ih c) (branch_fn t)
          constructor
          · rw [hrc.1]
            simp [takeThrough, h]
          · simp [takeThrough, h, hrc.2]

/-- C2: in every traversal, the visited sequence is exactly the inclusive
prefix of the never-aborting (softened) traversal's pre-order ending at the
first node whose visit answer is `Break` — so no node at all is visited
after that node — and the engine's outermost frame reports `Break` exactly
when some visited node answered `Break`, i.e. the signal propagates through
every enclosing recursive frame without being weakened. -/
theorem traverse_tree_break_truncates {α : Type u}
    (initial : α) (condition : α → Bool) (branch_fn : α → List α)
    (visit_fn : α → TreeControl) (fuel : Nat) :
    traverse_tree initial condition branch_fn visit_fn fuel
        = takeThrough (fun x => decide (visit_fn x = TreeControl.Break))
            (traverse_tree initial condition branch_fn (soften visit_fn) fuel)
      ∧ ((traverse_internal condition branch_fn visit_fn fuel initial).2
            = TreeControl.Break
          ↔ (traverse_internal condition branch_fn visit_fn fuel initial).1.any
              (fun x => decide (visit_fn x = TreeControl.Break)) = true) := by
  constructor
  · unfold traverse_tree
    by_cases h : condition initial = true
    · rw [if_pos h, if_pos h]
      exact (traverse_internal_break_trunc fuel initial).1
    · rw [if_neg h, if_neg h]
      rfl
  · rw [(traverse_internal_break_trunc fuel initial).1,
      (traverse_internal_break_trunc fuel initial).2, any_takeThrough]

example : traverse_tree 0 (fun n => decide (n ≤ 10)) (fun n => [n + 1])
    (soften fun n => if 5 ≤ n then TreeControl.Break else TreeControl.Continue) 12
    = [0, 1, 2, 3, 4, 5, 6, 7, 8, 9, 10] := by decide

/-- Reference listing for pruning at `N`: the eligible pre-order of the tree
in which every occurrence of `N` is kept but contributes no children — i.e.
the full listing minus exactly the proper descendants of `N`. -/
def preorderExcept [DecidableEq α] (N : α) (condition : α → Bool)
    (branch_fn : α → List α) : Nat → α → List α
  | 0 => fun _ => []
  | fuel + 1 => fun t =>
      t :: (if t = N then [] else
        ((branch_fn t).filter condition).flatMap
          (preorderExcept N condition branch_fn fuel))

theorem preorderSteered_eq_except {α : Type u} [DecidableEq α]
    {condition : α → Bool} {branch_fn : α → List α} {visit_fn : α → TreeControl}
    {N : α} (hN : visit_fn N = TreeControl.Prune)
    (hother : ∀ x, x ≠ N → visit_fn x = TreeControl.Continue) :
    ∀ (fuel : Nat) (t : α),
      preorderSteered condition branch_fn visit_fn fuel t
        = preorderExcept N condition branch_fn fuel t := by
  intro fuel
  induction fuel with
  | zero => intro t; rfl
  | succ fuel ih =>
      intro t
      by_cases ht : t = N
      · subst ht
        simp [preorderSteered, preorderExcept, hN]
      · simp only [preorderSteered, preorderExcept, hother t ht, if_neg ht]
        rw [List.cons_inj_right]
        exact flatMap_congr_mem fun c _ => ih c

/-- C3: when the visitor prunes exactly at `N` (and never breaks), the
visited sequence is the eligible pre-order with every occurrence of `N` kept
but its children suppressed: `N` itself is visited, nothing below `N` is,
and every eligible node outside the subtrees rooted at `N` is still visited
in its usual position. (In the Rust source, `Prune` returns before the
`branch_fn` call, so `branch_fn` is never invoked on `N`.) -/
theorem traverse_tree_prune_excludes_subtree {α : Type u} [DecidableEq α]
    (initial N : α) (condition : α → Bool) (branch_fn : α → List α)
    (visit_fn : α → TreeControl)
    (hN : visit_fn N = TreeControl.Prune)
    (hother : ∀ x, x ≠ N → visit_fn x = TreeControl.Continue)
    (fuel : Nat) (hroot : condition initial = true) :
    traverse_tree initial condition branch_fn visit_fn fuel
      = preorderExcept N condition branch_fn fuel initial := by
  have hv : ∀ x, visit_fn x ≠ TreeControl.Break := by
    intro x
    by_cases hx : x = N
    · subst hx; simp [hN]
    · simp [hother x hx]
  unfold traverse_tree
  rw [if_pos hroot, traverse_internal_no_break hv]
  exact preorderSteered_eq_except hN hother fuel initial

theorem traverse_tree_prune_excludes_subtree_witness :
    (fun x => if x = 2 then TreeControl.Prune else TreeControl.Continue) 2
        = TreeControl.Prune
      ∧ traverse_tree 1 (fun n => decide (n < 8)) (fun n => [2 * n, 2 * n + 1])
          (fun x => if x = 2 then TreeControl.Prune else TreeControl.Continue) 5
        = preorderExcept 2 (fun n => decide (n < 8)) (fun n => [2 * n, 2 * n + 1]) 5 1 := by
  refine ⟨by decide, ?_⟩
  exact traverse_tree_prune_excludes_subtree 1 2 (fun n => decide (n < 8))
    (fun n => [2 * n, 2 * n + 1])
    (fun x => if x = 2 then TreeControl.Prune else TreeControl.Continue)
    (by simp) (fun x hx => by simp [hx]) 5 (by decide)

example : preorderExcept 2 (fun n => decide (n < 8)) (fun n => [2 * n, 2 * n + 1]) 5 1
    = [1, 2, 3, 6, 7] := by decide

/-- Core of C7: two traversals that agree everywhere except that the first
prunes at `N` while the second continues at `N` over an empty child list are
indistinguishable frame by frame. -/
theorem traverse_internal_prune_equiv {α : Type u} {condition : α → Bool}
    {branch₁ branch₂ : α → List α} {visit₁ visit₂ : α → TreeControl} {N : α}
    (h₁ : visit₁ N = TreeControl.Prune)
    (h₂ : visit₂ N = TreeControl.Continue)
    (hb₂ : branch₂ N = [])
    (hv : ∀ x, x ≠ N → visit₁ x = visit₂ x)
    (hb : ∀ x, x ≠ N → branch₁ x = branch₂ x) :
    ∀ (fuel : Nat) (t : α),
      traverse_internal condition branch₁ visit₁ fuel t
        = traverse_internal condition branch₂ visit₂ fuel t := by
  intro fuel
  induction fuel with
  | zero => intro t; rfl
  | succ fuel ih =>
      intro t
      by_cases ht : t = N
      · subst ht
        rw [traverse_internal_succ_prune _ _ _ _ h₁,
          traverse_internal_succ_continue _ _ _ _ h₂, hb₂]
        rfl
      · cases h : visit₁ t with
        | Break =>
            rw [traverse_internal_succ_break _ _ _ _ h,
              traverse_internal_succ_break _ _ _ _ ((hv t ht).symm.trans h)]
        | Prune =>
            rw [traverse_internal_succ_prune _ _ _ _ h,
              traverse_internal_succ_prune _ _ _ _ ((hv t ht).symm.trans h)]
        | Continue =>
            rw [traverse_internal_succ_continue _ _ _ _ h,
              traverse_internal_succ_continue _ _ _ _ ((hv t ht).symm.trans h),
              hb t ht, runChildren_congr fun c _ _ => ih c]

/-- C7: a traversal whose visitor returns `Prune` at `N` produces exactly
the same visited sequence as the traversal whose visitor returns `Continue`
at `N` but whose branch function returns no children at `N` — `Prune` is
observationally the same as skipping the branch-expansion step. -/
theorem prune_equiv_empty_branch {α : Type u}
    (initial N : α) (condition : α → Bool)
    (branch₁ branch₂ : α → List α) (visit₁ visit₂ : α → TreeControl)
    (h₁ : visit₁ N = TreeControl.Prune)
    (h₂ : visit₂ N = TreeControl.Continue)
    (hb₂ : branch₂ N = [])
    (hv : ∀ x, x ≠ N → visit₁ x = visit₂ x)
    (hb : ∀ x, x ≠ N → branch₁ x = branch₂ x)
    (fuel : Nat) :
    traverse_tree initial condition branch₁ visit₁ fuel
      = traverse_tree initial condition branch₂ visit₂ fuel := by
  unfold traverse_tree
  by_cases h : condition initial = true
  · rw [if_pos h, if_pos h,
      traverse_internal_prune_equiv h₁ h₂ hb₂ hv hb fuel initial]
  · rw [if_neg h, if_neg h]

theorem prune_equiv_empty_branch_witness :
    (fun x => if x = 2 then TreeControl.Prune else TreeControl.Continue) 2
        = TreeControl.Prune
      ∧ traverse_tree 1 (fun n => decide (n < 8)) (fun n => [2 * n, 2 * n + 1])
          (fun x => if x = 2 then TreeControl.Prune else TreeControl.Continue) 5
        = traverse_tree 1 (fun n => decide (n < 8))
            (fun n => if n = 2 then [] else [2 * n, 2 * n + 1])
            (fun _ => TreeControl.Continue) 5 := by
  refine ⟨by decide, ?_⟩
  exact prune_equiv_empty_branch 1 2 (fun n => decide (n < 8))
    (fun n => [2 * n, 2 * n + 1]) (fun n => if n = 2 then [] else [2 * n, 2 * n + 1])
    (fun x => if x = 2 then TreeControl.Prune else TreeControl.Continue)
    (fun _ => TreeControl.Continue)
    (by simp) rfl (by simp) (fun x hx => by simp [hx]) (fun x hx => by simp [hx]) 5

/-- Fuel irrelevance: when a measure `m` strictly decreases from each
reachable node to each of its eligible produced children, any two fuel
bounds above `m t` give the same run — the embedding's fuel is immaterial
for trees whose eligible part is finite and acyclic. -/
theorem traverse_internal_fuel_irrel {α : Type u}
    {condition : α → Bool} {branch_fn : α → List α} {visit_fn : α → TreeControl}
    {root : α} {m : α → Nat}
    (hm : ∀ t c, Reaches branch_fn root t → c ∈ branch_fn t →
      condition c = true → m c < m t) :
    ∀ fuel₁ fuel₂ t, Reaches branch_fn root t → m t < fuel₁ → m t < fuel₂ →
      traverse_internal condition branch_fn visit_fn fuel₁ t
        = traverse_internal condition branch_fn visit_fn fuel₂ t := by
  intro fuel₁
  induction fuel₁ with
  | zero => intro fuel₂ t _ h1 _; omega
  | succ fuel₁ ih =>
      intro fuel₂ t ht h1 h2
      cases fuel₂ with
      | zero => omega
      | succ fuel₂ =>
          cases h : visit_fn t with
          | Break =>
              rw [traverse_internal_succ_break _ _ _ _ h,
                traverse_internal_succ_break _ _ _ _ h]
          | Prune =>
              rw [traverse_internal_succ_prune _ _ _ _ h,
                traverse_internal_succ_prune _ _ _ _ h]
          | Continue =>
              rw [traverse_internal_succ_continue _ _ _ _ h,
                traverse_internal_succ_continue _ _ _ _ h,
                runChildren_congr fun c hcm hcc =>
                  ih fuel₂ c (Reaches.tail ht hcm)
                    (by have := hm t c ht hcm hcc; omega)
                    (by have := hm t c ht hcm hcc; omega)]

/-- C8: root `0`, `branch n = [n+1]`, `condition n = n ≤ 10`, visitor breaks
as soon as `n ≥ 5`: the traversal performs exactly six visits, in the order
`[0, 1, 2, 3, 4, 5]` (for every fuel bound large enough that the fuel
artifact of the embedding plays no role). -/
theorem traverse_tree_break_scenario (fuel : Nat) (hf : 12 ≤ fuel) :
    traverse_tree 0 (fun n => decide (n ≤ 10)) (fun n => [n + 1])
      (fun n => if 5 ≤ n then TreeControl.Break else TreeControl.Continue) fuel
      = [0, 1, 2, 3, 4, 5] := by
  have hm : ∀ t c : Nat, Reaches (fun n => [n + 1]) 0 t →
      c ∈ (fun n : Nat => [n + 1]) t → (fun n => decide (n ≤ 10)) c = true →
      (fun n : Nat => 11 - n) c < (fun n : Nat => 11 - n) t := by
    intro t c _ hcm hcc
    simp only [List.mem_singleton] at hcm
    simp only [decide_eq_true_eq] at hcc
    show 11 - c < 11 - t
    omega
  have heq := @traverse_internal_fuel_irrel Nat (fun n => decide (n ≤ 10))
    (fun n => [n + 1]) (fun n => if 5 ≤ n then TreeControl.Break else TreeControl.Continue)
    0 (fun n : Nat => 11 - n) hm
    fuel 12 0 Reaches.refl (by show 11 - 0 < fuel; omega) (by show 11 - 0 < 12; omega)
  unfold traverse_tree
  rw [if_pos (by decide), heq]
  decide

theorem traverse_tree_break_scenario_witness :
    12 ≤ 12
      ∧ traverse_tree 0 (fun n => decide (n ≤ 10)) (fun n => [n + 1])
          (fun n => if 5 ≤ n then TreeControl.Break else TreeControl.Continue) 12
        = [0, 1, 2, 3, 4, 5] :=
  ⟨by decide, traverse_tree_break_scenario 12 (by decide)⟩

/-- C9: the engine is deterministic and introduces no state of its own: two
runs from equal initial values whose condition, branch and visit functions
answer identically on equal inputs produce identical visited sequences. -/
theorem traverse_tree_deterministic {α : Type u}
    (initial : α) (condition₁ condition₂ : α → Bool)
    (branch₁ branch₂ : α → List α) (visit₁ visit₂ : α → TreeControl)
    (hc : ∀ t, condition₁ t = condition₂ t)
    (hb : ∀ t, branch₁ t = branch₂ t)
    (hv : ∀ t, visit₁ t = visit₂ t) (fuel : Nat) :
    traverse_tree initial condition₁ branch₁ visit₁ fuel
      = traverse_tree initial condition₂ branch₂ visit₂ fuel := by
  rw [funext hc, funext hb, funext hv]

theorem traverse_tree_deterministic_witness :
    (∀ t : Nat, decide (t < 3) = decide (t < 2 + 1))
      ∧ traverse_tree 0 (fun n => decide (n < 3)) (fun n => [n + 1])
          (fun _ => TreeControl.Continue) 5
        = traverse_tree 0 (fun n => decide (n < 2 + 1)) (fun n => [n + 1])
          (fun _ => TreeControl.Continue) 5 :=
  ⟨fun _ => rfl, traverse_tree_deterministic 0 (fun n => decide (n < 3))
    (fun n => decide (n < 2 + 1)) (fun n => [n + 1]) (fun n => [n + 1])
    (fun _ => TreeControl.Continue) (fun _ => TreeControl.Continue)
    (fun _ => rfl) (fun _ => rfl) (fun _ => rfl) 5⟩

/-- C10: for every initial value whose reachable branch structure is
well-founded — witnessed by a measure strictly decreasing from every
reachable node to every produced child, so every descending chain of
produced children is finite — the traversal terminates whatever signals the
visitor returns: its result is already reached at fuel `m initial + 1` and
no larger fuel bound ever changes it. -/
theorem traverse_tree_terminates {α : Type u}
    (initial : α) (condition : α → Bool) (branch_fn : α → List α)
    (visit_fn : α → TreeControl) (m : α → Nat)
    (hm : ∀ t c, Reaches branch_fn initial t → c ∈ branch_fn t → m c < m t)
    (fuel : Nat) (hf : m initial < fuel) :
    traverse_tree initial condition branch_fn visit_fn fuel
      = traverse_tree initial condition branch_fn visit_fn (m initial + 1) := by
  unfold traverse_tree
  by_cases h : condition initial = true
  · rw [if_pos h, if_pos h,
      traverse_internal_fuel_irrel (fun t c ht hcm _ => hm t c ht hcm)
        fuel (m initial + 1) initial Reaches.refl hf (by omega)]
  · rw [if_neg h, if_neg h]

theorem traverse_tree_terminates_witness :
    traverse_tree 0 (fun _ => true) (fun n => if n < 3 then [n + 1] else [])
        (fun n => if n = 1 then TreeControl.Prune else TreeControl.Continue) 7
      = traverse_tree 0 (fun _ => true) (fun n => if n < 3 then [n + 1] else [])
        (fun n => if n = 1 then TreeControl.Prune else TreeControl.Continue)
        ((fun n : Nat => 3 - n) 0 + 1) := by
  have hm : ∀ t c : Nat, Reaches (fun n => if n < 3 then [n + 1] else []) 0 t →
      c ∈ (fun n : Nat => if n < 3 then [n + 1] else []) t →
      (fun n : Nat => 3 - n) c < (fun n : Nat => 3 - n) t := by
    intro t c _ hcm
    by_cases h : t < 3
    · simp [h] at hcm
      show 3 - c < 3 - t
      omega
    · simp [h] at hcm
  exact traverse_tree_terminates 0 (fun _ => true)
    (fun n => if n < 3 then [n + 1] else [])
    (fun n => if n = 1 then TreeControl.Prune else TreeControl.Continue)
    (fun n => 3 - n) hm 7 (by decide)

example : traverse_tree 0 (fun n => decide (n ≤ 10)) (fun n => [n + 1])
    (fun n => if 5 ≤ n then TreeControl.Break else TreeControl.Continue) 12
    = [0, 1, 2, 3, 4, 5] := by decide
